import Mathlib

/-!
Verification of the fastdata interactive table viewer
(`src/main.rs`, `src/data_loader.rs`, `src/virtual_table.rs`, `src/tui_app.rs`).

The engine state and operations of `TuiApp` (tui_app.rs) are embedded
shallowly:

* `u16` arithmetic is `Nat` with explicit wrapping `% 65536` where the Rust
  code adds or subtracts (`wrap16`, `sub16`); `usize` subtraction
  `num_rows - 1` is wrapping subtraction modulo `2^64` (`usizePred`),
  matching release-profile behavior (in the debug profile the same
  expression panics; both divergences from a clamped no-op are recorded
  where relevant).
* `f64` parsing and comparison appear only through a parameter
  `parse : String → Option α` (respectively a comparator
  `cmp : String → String → Ordering`): the general theorems quantify over
  it, so they cover the actual `str::parse::<f64>` instance.  Concrete
  witnesses use `parseNat`, which evaluates the decimal-digit fragment of
  that parser (the only fragment exercised by the concrete inputs here).
* Rust `String::len` is the UTF-8 byte length, embedded as
  `String.utf8ByteSize`; `a.cmp(b)` on `str` is lexicographic byte order,
  which on valid UTF-8 coincides with Lean's `compare` on `String`.
* Fallible indexing (`col[selected_row]`, which panics when out of range)
  is embedded with `Option`: `none` marks the panic.
* `Vec::sort_by` is a stable sort; it is embedded as a stable insertion
  sort (`sortIndices`), which computes the same permutation as any stable
  sort for a total preorder comparator.
* The `HashMap<usize, Vec<AggregationFunction>>` of selected aggregations
  is embedded as an association list with unique keys and the same
  entry/insert/remove protocol (`lookupA`, `insertA`, `eraseA`).
* The `TableState`/`ListState` render cursors mirror `selected_row` and
  the popup cursor; the popup cursor (`aggregation_state.selected()`,
  an `Option<usize>`) is kept as `aggregationSelected : Option Nat`.
-/

namespace Fastdata

/-- Wrapping to `u16`: Rust release-profile overflow semantics for `+`. -/
def wrap16 (n : Nat) : Nat := n % 65536

/-- Wrapping `u16` subtraction `a - b` for `a b < 65536`. -/
def sub16 (a b : Nat) : Nat := (a + 65536 - b) % 65536

/-- Modulus of `usize` (64-bit target). -/
def USIZE : Nat := 18446744073709551616

/-- Wrapping `usize` computation of `n - 1` (release profile; debug panics
when `n = 0`). -/
def usizePred (n : Nat) : Nat := (n + (USIZE - 1)) % USIZE

/-- tui_app.rs: `enum AggregationFunction { Count, UniqueCount, Sum }`. -/
inductive AggregationFunction
  | Count
  | UniqueCount
  | Sum
deriving DecidableEq

/-- tui_app.rs: `AggregationFunction::iter()` order (strum `EnumIter` is
declaration order). -/
def aggFunctions : List AggregationFunction := [.Count, .UniqueCount, .Sum]

/-- tui_app.rs: `enum ColumnWidth { Fixed(u16), Content }`. -/
inductive ColumnWidth
  | Fixed (w : Nat)
  | Content
deriving DecidableEq

/-- data_loader.rs: `struct TableData { headers, columns }`; the
`VirtualTable` wrapper of virtual_table.rs adds nothing and is elided. -/
structure TableData where
  headers : List String
  columns : List (List String)
deriving DecidableEq

/-- tui_app.rs: the row count used throughout (`main_loop`, `sort_table`):
`if columns.is_empty() { 0 } else { columns[0].len() }`. -/
def numRows (t : TableData) : Nat :=
  if t.columns = [] then 0 else (t.columns.getD 0 []).length

/-- Decimal-digit fragment of Rust `str::parse::<f64>`, used only to
instantiate concrete inputs; general theorems quantify over the parser. -/
def parseNat (s : String) : Option Nat :=
  if s.data ≠ [] ∧ s.data.all Char.isDigit then
    some (s.data.foldl (fun n c => n * 10 + (c.toNat - 48)) 0)
  else none

/-- tui_app.rs: `compare_cells`.  If both cells parse as numbers they are
compared numerically (`partial_cmp` with `unwrap_or(Equal)`; the parameter
`parse` stands for `str::parse::<f64>`, and a linear order stands for the
numeric comparison), otherwise by plain string order (`a.cmp(b)`). -/
def compare_cells {α : Type} [LinearOrder α] (parse : String → Option α)
    (a b : String) : Ordering :=
  match parse a, parse b with
  | some x, some y => compare x y
  | _, _ => compare a b

/-- Concrete comparator instance used by concrete inputs. -/
def cmpN : String → String → Ordering := compare_cells parseNat

/-- Stable insertion step: place `x` after every element of the sorted
accumulator that does not compare strictly greater than it. -/
def insertIdx (cmp : Nat → Nat → Ordering) (x : Nat) : List Nat → List Nat
  | [] => [x]
  | y :: ys => if cmp x y = .lt then x :: y :: ys else y :: insertIdx cmp x ys

/-- tui_app.rs `sort_table`: `indices.sort_by(...)` — `Vec::sort_by` is a
stable sort; for a total preorder comparator every stable sort computes
the same permutation, embedded here as stable insertion sort. -/
def sortIndices (cmp : Nat → Nat → Ordering) (l : List Nat) : List Nat :=
  l.foldl (fun acc x => insertIdx cmp x acc) []

/-- tui_app.rs `sort_table` comparator on row indices: compares the cells
of the sort column, reversed (`ord.reverse()`) when descending.  The
indexing `columns[col_idx][i]` is total here via `getD`; callers only
compare indices below the row count of a rectangular table. -/
def cellCmp (cmp : String → String → Ordering) (col : List String)
    (ascending : Bool) (i j : Nat) : Ordering :=
  let o := cmp (col.getD i "") (col.getD j "")
  if ascending then o else o.swap

/-- tui_app.rs: `sort_table` — sort row indices by the selected column's
cells, then permute every column by the resulting index list.  (The
`selected_row = 0` reset lives in the state-level step function.) -/
def sort_table (cmp : String → String → Ordering) (t : TableData)
    (colIdx : Nat) (ascending : Bool) : TableData :=
  let sortCol := t.columns.getD colIdx []
  let indices := sortIndices (cellCmp cmp sortCol ascending)
    (List.range (numRows t))
  ⟨t.headers, t.columns.map (fun col => indices.map (fun i => col.getD i ""))⟩

/-- tui_app.rs `calculate_aggregations`, `Sum` arm: parse every cell
(`filter_map`), return the sum only when nothing was dropped and the
column is non-empty
(`parsed_data.len() == column_data.len() && !parsed_data.is_empty()`). -/
def sumAggregate {α : Type} [AddCommMonoid α] (parse : String → Option α)
    (column : List String) : Option α :=
  let parsed := column.filterMap parse
  if parsed.length = column.length ∧ parsed.isEmpty = false then
    some parsed.sum
  else none

/-- tui_app.rs `calculate_aggregations`, `Count` arm: the column length. -/
def countAggregate (column : List String) : Nat := column.length

/-- tui_app.rs `calculate_aggregations`, `UniqueCount` arm: the number of
distinct cell values (`HashSet` of the cells). -/
def uniqueCountAggregate (column : List String) : Nat := column.toFinset.card

/-- tui_app.rs: the `Fixed(_) → Content → Fixed(15)` width flip used both
by the single-column toggle and the chord toggle-all. -/
def toggleWidth : ColumnWidth → ColumnWidth
  | .Fixed _ => .Content
  | .Content => .Fixed 15

/-- tui_app.rs: `get_column_width`.  `Fixed(w)` is `w`; `Content` is
`columns[index].iter().map(|cell| cell.len() as u16).max().unwrap_or(10) + 2`
(byte length cast to `u16`, maximum over the column, `10` only when the
column is empty, plus two, in `u16`).  The Rust indexing panics when
`index` is out of range; callers keep `index` below the column count, and
the out-of-range value is defaulted here. -/
def get_column_width (widths : List ColumnWidth)
    (columns : List (List String)) (index : Nat) : Nat :=
  match widths.getD index (.Fixed 15) with
  | .Fixed w => w
  | .Content =>
      wrap16 ((((columns.getD index []).map
        (fun cell => wrap16 cell.utf8ByteSize)).max?.getD 10) + 2)

/-- tui_app.rs: the `HashMap` of selected aggregations, as an association
list with unique keys: lookup. -/
def lookupA (k : Nat) :
    List (Nat × List AggregationFunction) → Option (List AggregationFunction)
  | [] => none
  | (k', v) :: rest => if k' = k then some v else lookupA k rest

/-- Association-list insert-or-replace (`HashMap::insert` semantics). -/
def insertA (k : Nat) (v : List AggregationFunction) :
    List (Nat × List AggregationFunction) → List (Nat × List AggregationFunction)
  | [] => [(k, v)]
  | (k', v') :: rest =>
      if k' = k then (k, v) :: rest else (k', v') :: insertA k v rest

/-- Association-list remove (`HashMap::remove` semantics). -/
def eraseA (k : Nat) (m : List (Nat × List AggregationFunction)) :
    List (Nat × List AggregationFunction) :=
  m.filter (fun e => e.1 ≠ k)

/-- tui_app.rs `main_loop`, popup `Char(' ')` arm: fetch (or create empty)
the entry for the selected grid column, toggle membership of the chosen
function (`retain` removes it, `push` appends it), and remove the entry
when it became empty. -/
def toggleAggregation (m : List (Nat × List AggregationFunction))
    (col : Nat) (agg : AggregationFunction) :
    List (Nat × List AggregationFunction) :=
  let entry := (lookupA col m).getD []
  if agg ∈ entry then
    let entry' := entry.filter (fun x => x ≠ agg)
    if entry' = [] then eraseA col m else insertA col entry' m
  else insertA col (entry ++ [agg]) m

/-- tui_app.rs: the engine fields of `struct TuiApp` (terminal handles
and the duplicated `TableState` row cursor elided). -/
structure AppState where
  table : TableData
  selectedRow : Nat
  selectedColumn : Nat
  showAggregationPopup : Bool
  aggregationSelected : Option Nat
  selectedAggregations : List (Nat × List AggregationFunction)
  awaitingGKey : Bool
  columnWidths : List ColumnWidth
  horizontalOffset : Nat
  tableAreaWidth : Nat
deriving DecidableEq

/-- tui_app.rs: `TuiApp::new` — fresh viewer over a table, everything at
its default. -/
def TuiApp_new (t : TableData) : AppState :=
  { table := t
    selectedRow := 0
    selectedColumn := 0
    showAggregationPopup := false
    aggregationSelected := some 0
    selectedAggregations := []
    awaitingGKey := false
    columnWidths := List.replicate t.headers.length (.Fixed 15)
    horizontalOffset := 0
    tableAreaWidth := 0 }

/-- tui_app.rs `adjust_horizontal_offset`: the start cell of the selected
column — widths of all preceding columns plus one separator each,
accumulated in `u16`. -/
def colStart (s : AppState) : Nat :=
  (List.range s.selectedColumn).foldl
    (fun acc i =>
      wrap16 (acc + wrap16 (get_column_width s.columnWidths s.table.columns i + 1)))
    0

/-- tui_app.rs: `adjust_horizontal_offset`.  `visible_width` is
`table_area_width.saturating_sub(2)` (`Nat` subtraction is saturating);
the two snaps follow the source, with `u16` wrapping on `+` and `-`. -/
def adjust_horizontal_offset (s : AppState) : AppState :=
  let cs := colStart s
  let w := get_column_width s.columnWidths s.table.columns s.selectedColumn
  let visible := s.tableAreaWidth - 2
  if cs < s.horizontalOffset then { s with horizontalOffset := cs }
  else if wrap16 (cs + w) > wrap16 (s.horizontalOffset + visible) then
    { s with horizontalOffset := sub16 (wrap16 (cs + w)) visible }
  else s

/-- tui_app.rs `open_detail_view`: the value column
`columns.iter().map(|col| col[selected_row].clone()).collect()`, with the
panicking index embedded as `none`. -/
def collectValueColumn (cols : List (List String)) (r : Nat) :
    Option (List String) :=
  match cols with
  | [] => some []
  | col :: rest =>
      match col[r]?, collectValueColumn rest r with
      | some v, some vs => some (v :: vs)
      | _, _ => none

/-- tui_app.rs: `open_detail_view` — a fresh viewer over the two-column
`Field`/`Value` table whose field column is the parent's headers and whose
value column is the parent's selected row; `none` when the row index is
out of range (the Rust code panics there). -/
def open_detail_view (s : AppState) : Option AppState :=
  match collectValueColumn s.table.columns s.selectedRow with
  | none => none
  | some valueColumn =>
      some (TuiApp_new ⟨["Field", "Value"], [s.table.headers, valueColumn]⟩)

/-- main.rs: pushing a detail viewer onto `app_stack`. -/
def pushView (stack : List AppState) (a : AppState) : List AppState :=
  stack ++ [a]

/-- main.rs: popping the active viewer from `app_stack`
(`app_stack.pop()`); the viewer beneath resumes untouched. -/
def popView (stack : List AppState) : List AppState := stack.dropLast

/-- Key events distinguished by `main_loop`. -/
inductive KeyCode
  | up
  | down
  | left
  | right
  | enter
  | char (c : Char)
  | otherKey

/-- One poll cycle's outcome: a key event, a non-key event (the `else`
branch of `if let Event::Key`), or no event inside the poll timeout. -/
inductive Inp
  | key (k : KeyCode)
  | nonKey
  | timeout

/-- What `main_loop` signals to main.rs for this iteration: keep looping,
return `Some(new_app)` (push), or return `None` (pop). -/
inductive StepOut
  | cont
  | pushV (detail : Option AppState)
  | popV
deriving DecidableEq

/-- tui_app.rs `main_loop`, popup-open branch: wrap-around cursor moves,
space toggles the cursor's function for the selected grid column
(`iter().nth(index).unwrap()` stays in range because the cursor does),
Enter or `q` closes the popup. -/
def popupStep (s : AppState) (k : KeyCode) : AppState :=
  match k with
  | .up =>
      let i := match s.aggregationSelected with
        | some i => if i = 0 then aggFunctions.length - 1 else i - 1
        | none => 0
      { s with aggregationSelected := some i }
  | .down =>
      let i := match s.aggregationSelected with
        | some i => if i ≥ aggFunctions.length - 1 then 0 else i + 1
        | none => 0
      { s with aggregationSelected := some i }
  | .enter => { s with showAggregationPopup := false }
  | .char c =>
      if c = ' ' then
        let index := s.aggregationSelected.getD 0
        let agg := aggFunctions.getD index .Count
        { s with selectedAggregations :=
            toggleAggregation s.selectedAggregations s.selectedColumn agg }
      else if c = 'q' then { s with showAggregationPopup := false }
      else s
  | _ => s

/-- tui_app.rs `main_loop`, chord-pending branch: `-` clears all
aggregation selections, `_` flips every column's width mode, anything
else only abandons the chord; all three return to normal mode. -/
def chordStep (s : AppState) (k : KeyCode) : AppState :=
  match k with
  | .char c =>
      if c = '-' then
        { s with selectedAggregations := [], awaitingGKey := false }
      else if c = '_' then
        { s with columnWidths := s.columnWidths.map toggleWidth,
                 awaitingGKey := false }
      else { s with awaitingGKey := false }
  | _ => { s with awaitingGKey := false }

/-- tui_app.rs `main_loop`, normal branch.  `Down` and `Right` compare
against `num_rows - 1` and `headers.len() - 1` in `usize` (wrapping here,
matching release; debug panics when the length is zero).  `Left`/`Right`
re-run the horizontal adjustment.  `_` flips one width via `get_mut`
(no-op out of range, as `List.set` is).  `[`/`]` sort and reset the row
cursor.  Space opens the popup with its cursor at 0.  Enter signals a
push of the detail viewer, `q` signals a pop. -/
def normalStep (cmp : String → String → Ordering) (s : AppState)
    (k : KeyCode) : AppState × StepOut :=
  match k with
  | .up =>
      ({ s with selectedRow :=
          if s.selectedRow > 0 then s.selectedRow - 1 else s.selectedRow },
       .cont)
  | .down =>
      ({ s with selectedRow :=
          if s.selectedRow < usizePred (numRows s.table) then
            s.selectedRow + 1
          else s.selectedRow },
       .cont)
  | .left =>
      if s.selectedColumn > 0 then
        (adjust_horizontal_offset { s with selectedColumn := s.selectedColumn - 1 },
         .cont)
      else (s, .cont)
  | .right =>
      if s.selectedColumn < usizePred s.table.headers.length then
        (adjust_horizontal_offset { s with selectedColumn := s.selectedColumn + 1 },
         .cont)
      else (s, .cont)
  | .enter => (s, .pushV (open_detail_view s))
  | .char c =>
      if c = 'g' then ({ s with awaitingGKey := true }, .cont)
      else if c = '_' then
        let flipped := toggleWidth (s.columnWidths.getD s.selectedColumn (.Fixed 15))
        ({ s with columnWidths := s.columnWidths.set s.selectedColumn flipped },
         .cont)
      else if c = '[' then
        ({ s with table := sort_table cmp s.table s.selectedColumn true,
                  selectedRow := 0 },
         .cont)
      else if c = ']' then
        ({ s with table := sort_table cmp s.table s.selectedColumn false,
                  selectedRow := 0 },
         .cont)
      else if c = ' ' then
        ({ s with showAggregationPopup := true, aggregationSelected := some 0 },
         .cont)
      else if c = 'q' then (s, .popV)
      else (s, .cont)
  | .otherKey => (s, .cont)

/-- tui_app.rs `main_loop`, one poll iteration: a key event dispatches on
the mode (popup first, then pending chord, then normal); a non-key event
only clears a pending chord (`else { self.awaiting_g_key = false; }`);
a poll timeout changes nothing at all. -/
def main_loop_step (cmp : String → String → Ordering) (s : AppState) :
    Inp → AppState × StepOut
  | .timeout => (s, .cont)
  | .nonKey => ({ s with awaitingGKey := false }, .cont)
  | .key k =>
      if s.showAggregationPopup then (popupStep s k, .cont)
      else if s.awaitingGKey then (chordStep s k, .cont)
      else normalStep cmp s k

/-! ### Helper lemmas -/

theorem wrap16_eq_of_lt {n : Nat} (h : n < 65536) : wrap16 n = n :=
  Nat.mod_eq_of_lt h

theorem sub16_eq_of_le {a b : Nat} (hba : b ≤ a) (ha : a < 65536) :
    sub16 a b = a - b := by
  unfold sub16
  have h1 : a + 65536 - b = (a - b) + 65536 := by omega
  rw [h1, Nat.add_mod_right]
  exact Nat.mod_eq_of_lt (by omega)

theorem isEmpty_eq_false_iff {α : Type} (l : List α) :
    l.isEmpty = false ↔ l ≠ [] := by
  cases l <;> simp

theorem filterMap_length_eq_iff {α β : Type} (f : α → Option β) (l : List α) :
    (l.filterMap f).length = l.length ↔ ∀ a ∈ l, (f a).isSome := by
  induction l with
  | nil => simp
  | cons a l ih =>
    cases hfa : f a with
    | none =>
      have hle := List.length_filterMap_le f l
      simp only [List.filterMap_cons, hfa, List.length_cons, List.mem_cons]
      constructor
      · intro h; omega
      · intro h
        have := h a (Or.inl rfl)
        rw [hfa] at this
        simp at this
    | some b =>
      simp only [List.filterMap_cons, hfa, List.length_cons, List.mem_cons]
      constructor
      · intro h x hx
        rcases hx with hx | hx
        · rw [hx, hfa]; rfl
        · exact (ih.mp (by omega)) x hx
      · intro h
        have : (l.filterMap f).length = l.length :=
          ih.mpr (fun x hx => h x (Or.inr hx))
        omega

theorem foldl_wrap16_eq (f : Nat → Nat) (l : List Nat) (acc : Nat)
    (h : acc + (l.map f).sum < 65536) :
    l.foldl (fun a x => wrap16 (a + wrap16 (f x))) acc = acc + (l.map f).sum := by
  induction l generalizing acc with
  | nil => simp
  | cons x xs ih =>
    simp only [List.map_cons, List.sum_cons] at h ⊢
    have hfx : wrap16 (f x) = f x := wrap16_eq_of_lt (by omega)
    have hacc : wrap16 (acc + f x) = acc + f x := wrap16_eq_of_lt (by omega)
    simp only [List.foldl_cons, hfx, hacc]
    rw [ih (acc + f x) (by omega)]
    omega

theorem le_foldl_max (as : List Nat) (a : Nat) : a ≤ as.foldl max a := by
  induction as generalizing a with
  | nil => exact Nat.le_refl a
  | cons x xs ih =>
    simp only [List.foldl_cons]
    exact Nat.le_trans (Nat.le_max_left a x) (ih (max a x))

theorem mem_le_foldl_max (as : List Nat) (a : Nat) :
    ∀ x ∈ as, x ≤ as.foldl max a := by
  induction as generalizing a with
  | nil => intro x hx; cases hx
  | cons y ys ih =>
    intro x hx
    simp only [List.foldl_cons]
    rcases List.mem_cons.mp hx with hx | hx
    · subst hx
      exact Nat.le_trans (Nat.le_max_right a x) (le_foldl_max ys (max a x))
    · exact ih (max a y) x hx

theorem foldl_max_mem (as : List Nat) (a : Nat) :
    as.foldl max a ∈ a :: as := by
  induction as generalizing a with
  | nil => simp
  | cons x xs ih =>
    simp only [List.foldl_cons]
    rcases List.mem_cons.mp (ih (max a x)) with h | h
    · rcases max_choice a x with hm | hm <;> rw [hm] at h ⊢ <;> simp [h]
    · simp [h]

theorem range_map_getD {α : Type} (col : List α) (d : α) :
    (List.range col.length).map (fun i => col.getD i d) = col := by
  induction col with
  | nil => simp
  | cons a as ih =>
    rw [List.length_cons, List.range_succ_eq_map, List.map_cons, List.map_map]
    have h1 : (fun i => (a :: as).getD i d) ∘ Nat.succ = fun i => as.getD i d := by
      funext i
      simp [List.getD_cons_succ]
    rw [h1, ih]
    simp [List.getD_cons_zero]

theorem insertIdx_perm (cmp : Nat → Nat → Ordering) (x : Nat) (l : List Nat) :
    (insertIdx cmp x l).Perm (x :: l) := by
  induction l with
  | nil => exact List.Perm.refl _
  | cons y ys ih =>
    unfold insertIdx
    split
    · exact List.Perm.refl _
    · exact List.Perm.trans (List.Perm.cons y ih) (List.Perm.swap x y ys)

theorem foldl_insert_perm (cmp : Nat → Nat → Ordering) (l acc : List Nat) :
    (l.foldl (fun a x => insertIdx cmp x a) acc).Perm (acc ++ l) := by
  induction l generalizing acc with
  | nil => simp
  | cons x xs ih =>
    simp only [List.foldl_cons]
    refine List.Perm.trans (ih (insertIdx cmp x acc)) ?_
    refine List.Perm.trans (List.Perm.append_right xs (insertIdx_perm cmp x acc)) ?_
    exact List.Perm.symm List.perm_middle

theorem sortIndices_perm (cmp : Nat → Nat → Ordering) (l : List Nat) :
    (sortIndices cmp l).Perm l := by
  unfold sortIndices
  simpa using foldl_insert_perm cmp l []

theorem insertIdx_eq_append (cmp : Nat → Nat → Ordering) (x : Nat)
    (acc : List Nat) (h : ∀ y ∈ acc, cmp x y ≠ .lt) :
    insertIdx cmp x acc = acc ++ [x] := by
  induction acc with
  | nil => rfl
  | cons y ys ih =>
    unfold insertIdx
    rw [if_neg (h y (List.mem_cons_self y ys))]
    rw [ih (fun z hz => h z (List.mem_cons_of_mem y hz))]
    rfl

theorem foldl_insert_eq_append (cmp : Nat → Nat → Ordering) (l acc : List Nat)
    (h : ∀ x ∈ l, ∀ y ∈ acc ++ l, cmp x y ≠ .lt) :
    l.foldl (fun a x => insertIdx cmp x a) acc = acc ++ l := by
  induction l generalizing acc with
  | nil => simp
  | cons x xs ih =>
    simp only [List.foldl_cons]
    have hx : insertIdx cmp x acc = acc ++ [x] := by
      refine insertIdx_eq_append cmp x acc ?_
      intro y hy
      exact h x (List.mem_cons_self x xs) y (List.mem_append_left (x :: xs) hy)
    rw [hx]
    have := ih (acc ++ [x]) ?_
    · simpa using this
    · intro a ha y hy
      refine h a (List.mem_cons_of_mem x ha) y ?_
      simp only [List.append_assoc, List.cons_append, List.nil_append] at hy ⊢
      rcases List.mem_append.mp hy with hy | hy
      · exact List.mem_append_left _ hy
      · exact List.mem_append_right _ (List.mem_cons.mpr (by simpa using hy))

theorem sortIndices_eq_self (cmp : Nat → Nat → Ordering) (l : List Nat)
    (h : ∀ x ∈ l, ∀ y ∈ l, cmp x y ≠ .lt) :
    sortIndices cmp l = l := by
  unfold sortIndices
  have := foldl_insert_eq_append cmp l [] (by simpa using h)
  simpa using this

theorem lookupA_insertA_self (k : Nat) (v : List AggregationFunction)
    (m : List (Nat × List AggregationFunction)) :
    lookupA k (insertA k v m) = some v := by
  induction m with
  | nil => simp [insertA, lookupA]
  | cons e rest ih =>
    unfold insertA
    split
    · simp [lookupA]
    · unfold lookupA
      rename_i hne
      rw [if_neg hne]
      exact ih

theorem lookupA_eraseA_self (k : Nat)
    (m : List (Nat × List AggregationFunction)) :
    lookupA k (eraseA k m) = none := by
  induction m with
  | nil => rfl
  | cons e rest ih =>
    unfold eraseA List.filter
    split
    · unfold lookupA
      rename_i hkeep
      have : ¬ e.1 = k := by
        by_contra hk
        simp [hk] at hkeep
      rw [if_neg this]
      exact ih
    · exact ih

theorem mem_insertA {e : Nat × List AggregationFunction} (k : Nat)
    (v : List AggregationFunction)
    (m : List (Nat × List AggregationFunction))
    (h : e ∈ insertA k v m) : e = (k, v) ∨ e ∈ m := by
  induction m with
  | nil => simpa [insertA] using h
  | cons e' rest ih =>
    unfold insertA at h
    split at h
    · rcases List.mem_cons.mp h with h | h
      · exact Or.inl h
      · exact Or.inr (List.mem_cons_of_mem e' h)
    · rcases List.mem_cons.mp h with h | h
      · exact Or.inr (by simp [h])
      · rcases ih h with h | h
        · exact Or.inl h
        · exact Or.inr (List.mem_cons_of_mem e' h)

theorem collectValueColumn_eq (cols : List (List String)) (r R : Nat)
    (hlen : ∀ col ∈ cols, col.length = R) (hr : r < R) :
    collectValueColumn cols r = some (cols.map (fun col => col.getD r "")) := by
  induction cols with
  | nil => rfl
  | cons col rest ih =>
    have hcol : col.length = R := hlen col (List.mem_cons_self col rest)
    have hget : col[r]? = some (col.getD r "") := by
      rw [List.getD_eq_getElem?_getD]
      cases hx : col[r]? with
      | none =>
        have := List.getElem?_eq_none_iff.mp hx
        omega
      | some v => rfl
    unfold collectValueColumn
    rw [hget, ih (fun c hc => hlen c (List.mem_cons_of_mem col hc))]
    rfl

/-! ### Claim C1 -/

/-- Claim C1, amended: `Sum` aggregation is all-or-nothing, except that an
empty column also yields `none`: the result is `some` exactly when every
cell parses AND the column is non-empty, it is then the exact sum of the
parsed values, and any parse failure yields `none` (never a partial sum).
This holds for every parser, hence for `str::parse::<f64>`. -/
theorem C1_sum_all_or_nothing {α : Type} [AddCommMonoid α]
    (parse : String → Option α) (column : List String) :
    ((sumAggregate parse column).isSome
        ↔ ((∀ c ∈ column, (parse c).isSome) ∧ column ≠ [])) ∧
    ((∀ c ∈ column, (parse c).isSome) → column ≠ [] →
        sumAggregate parse column = some (column.filterMap parse).sum) ∧
    ((∃ c ∈ column, parse c = none) → sumAggregate parse column = none) := by
  have hlen := filterMap_length_eq_iff parse column
  have hcond : (∀ c ∈ column, (parse c).isSome) → column ≠ [] →
      (column.filterMap parse).length = column.length ∧
      (column.filterMap parse).isEmpty = false := by
    intro hall hcol
    refine ⟨hlen.mpr hall, ?_⟩
    rw [isEmpty_eq_false_iff]
    intro hnil
    have h0 : (column.filterMap parse).length = column.length := hlen.mpr hall
    rw [hnil] at h0
    exact hcol (List.eq_nil_of_length_eq_zero h0.symm)
  refine ⟨?_, ?_, ?_⟩
  · simp only [sumAggregate]
    split
    · rename_i h
      simp only [Option.isSome_some, true_iff]
      refine ⟨hlen.mp h.1, ?_⟩
      intro hemp
      rcases h with ⟨h1, h2⟩
      subst hemp
      simp at h2
    · rename_i h
      simp only [Option.isSome_none, Bool.false_eq_true, false_iff]
      rintro ⟨hall, hcol⟩
      exact h (hcond hall hcol)
  · intro hall hcol
    simp only [sumAggregate]
    rw [if_pos (hcond hall hcol)]
  · rintro ⟨c, hc, hnone⟩
    simp only [sumAggregate]
    rw [if_neg]
    intro h
    have := hlen.mp h.1 c hc
    rw [hnone] at this
    simp at this

/-- Witness for C1: a fully numeric non-empty column sums. -/
theorem C1_sum_all_or_nothing_witness :
    sumAggregate parseNat ["1", "2"] = some 3 := by
  have h := (C1_sum_all_or_nothing parseNat ["1", "2"]).2.1
    (by decide) (by decide)
  simpa using h

/-- Counterexample for C1 as stated: in the zero-cell column every cell
vacuously parses, yet `Sum` is `none`, not `some` of the empty sum. -/
theorem C1_empty_column_counterexample :
    (∀ c ∈ ([] : List String), (parseNat c).isSome) ∧
    (sumAggregate parseNat ([] : List String)).isSome = false := by
  refine ⟨?_, ?_⟩
  · intro c hc
    cases hc
  · decide

/-! ### Claim C3 -/

/-- Content-fit width of a non-empty column: the maximum byte length plus
two, with no floor of 10 (the `unwrap_or(10)` fires only on an empty
column). -/
theorem content_width_eq (col : List String) (m : Nat)
    (hmax : (col.map String.utf8ByteSize).max? = some m) (hm : m + 2 < 65536) :
    wrap16 (((col.map (fun cell => wrap16 cell.utf8ByteSize)).max?.getD 10) + 2)
      = m + 2 := by
  cases col with
  | nil => simp [List.max?] at hmax
  | cons c cs =>
    have hmval : (cs.map String.utf8ByteSize).foldl max c.utf8ByteSize = m := by
      have : ((c :: cs).map String.utf8ByteSize).max?
          = some ((cs.map String.utf8ByteSize).foldl max c.utf8ByteSize) := rfl
      rw [this] at hmax
      exact Option.some.inj hmax
    have hall : ∀ x ∈ (c :: cs), x.utf8ByteSize ≤ m := by
      intro x hx
      rcases List.mem_cons.mp hx with hx | hx
      · subst hx
        rw [← hmval]
        exact le_foldl_max _ _
      · rw [← hmval]
        exact mem_le_foldl_max _ _ _ (List.mem_map_of_mem String.utf8ByteSize hx)
    have hmapeq : (c :: cs).map (fun cell => wrap16 cell.utf8ByteSize)
        = (c :: cs).map String.utf8ByteSize := by
      refine List.map_congr_left ?_
      intro x hx
      exact wrap16_eq_of_lt (by have := hall x hx; omega)
    rw [hmapeq, hmax]
    exact wrap16_eq_of_lt hm

/-- Claim C3, amended: `Fixed(n)` renders as width `n`; a `ContentFit`
column renders as (maximum cell byte length) + 2 when non-empty — there
is no floor of 10 for non-empty columns — and as 10 + 2 = 12 only when
the column has no cells; every width the program's policies produce
(`Fixed(15)` or `ContentFit` over cells of fewer than 65534 bytes) is at
least 1. -/
theorem C3_column_width (widths : List ColumnWidth)
    (columns : List (List String)) (index : Nat) :
    (∀ w, widths.getD index (.Fixed 15) = .Fixed w →
        get_column_width widths columns index = w) ∧
    (widths.getD index (.Fixed 15) = .Content → columns.getD index [] = [] →
        get_column_width widths columns index = 12) ∧
    (widths.getD index (.Fixed 15) = .Content →
        ∀ m, ((columns.getD index []).map String.utf8ByteSize).max? = some m →
          m + 2 < 65536 → get_column_width widths columns index = m + 2) ∧
    ((widths.getD index (.Fixed 15) = .Fixed 15 ∨
        (widths.getD index (.Fixed 15) = .Content ∧
          ∀ c ∈ columns.getD index [], c.utf8ByteSize + 2 < 65536)) →
        1 ≤ get_column_width widths columns index) := by
  refine ⟨?_, ?_, ?_, ?_⟩
  · intro w hw
    unfold get_column_width
    rw [hw]
  · intro hw hcol
    unfold get_column_width
    rw [hw, hcol]
    rfl
  · intro hw m hmax hm
    unfold get_column_width
    rw [hw]
    exact content_width_eq _ m hmax hm
  · rintro (hw | ⟨hw, hcells⟩)
    · have h15 : get_column_width widths columns index = 15 := by
        unfold get_column_width
        rw [hw]
      rw [h15]
      omega
    · cases hcol : columns.getD index [] with
      | nil =>
        have h12 : get_column_width widths columns index = 12 := by
          unfold get_column_width
          rw [hw, hcol]
          rfl
        rw [h12]
        omega
      | cons c cs =>
        have hmax : ((c :: cs).map String.utf8ByteSize).max?
            = some ((cs.map String.utf8ByteSize).foldl max c.utf8ByteSize) := rfl
        have hmem := foldl_max_mem (cs.map String.utf8ByteSize) c.utf8ByteSize
        have hm : (cs.map String.utf8ByteSize).foldl max c.utf8ByteSize + 2 < 65536 := by
          rcases List.mem_cons.mp hmem with h | h
          · rw [h]
            exact hcells c (by rw [hcol]; exact List.mem_cons_self c cs)
          · rcases List.mem_map.mp h with ⟨x, hx, hxe⟩
            rw [← hxe]
            exact hcells x (by rw [hcol]; exact List.mem_cons_of_mem c hx)
        have hgcw : get_column_width widths columns index
            = (cs.map String.utf8ByteSize).foldl max c.utf8ByteSize + 2 := by
          unfold get_column_width
          rw [hw, hcol]
          exact content_width_eq (c :: cs) _ hmax hm
        rw [hgcw]
        omega

/-- Witness for C3: a content-fit column whose longest cell has 12 bytes
renders at width 14; a fixed-width column renders at its fixed width. -/
theorem C3_column_width_witness :
    get_column_width [ColumnWidth.Content] [["hello world!"]] 0 = 14 ∧
    get_column_width [ColumnWidth.Fixed 7] [["hello world!"]] 0 = 7 := by
  refine ⟨?_, ?_⟩
  · have h := (C3_column_width [ColumnWidth.Content] [["hello world!"]] 0).2.2.1
      rfl 12 (by decide) (by decide)
    simpa using h
  · exact (C3_column_width [ColumnWidth.Fixed 7] [["hello world!"]] 0).1 7 rfl

/-- Counterexample for C3 as stated: a non-empty content-fit column whose
longest cell has 3 characters renders at width 3 + 2 = 5, not
max(10, 3) + 2 = 12. -/
theorem C3_short_cell_counterexample :
    get_column_width [ColumnWidth.Content] [["abc"]] 0 = 5 ∧
    (5 : Nat) ≠ max 10 3 + 2 := by
  decide

/-! ### Claim C4 -/

/-- Claim C4, amended: in chord-pending mode a NON-KEY EVENT returns the
machine to normal mode with no action and every other field unchanged;
a poll TIMEOUT (no event at all) changes nothing — the pending prefix
persists rather than being abandoned. -/
theorem C4_chord_nonkey_vs_timeout (cmp : String → String → Ordering)
    (s : AppState) (h : s.awaitingGKey = true) :
    (main_loop_step cmp s .nonKey).1 = { s with awaitingGKey := false } ∧
    (main_loop_step cmp s .nonKey).2 = .cont ∧
    (main_loop_step cmp s .timeout).1 = s ∧
    (main_loop_step cmp s .timeout).2 = .cont :=
  ⟨rfl, rfl, rfl, rfl⟩

/-- Concrete state with a pending chord prefix. -/
def sChord : AppState :=
  { TuiApp_new ⟨["A"], [["x"]]⟩ with awaitingGKey := true }

/-- Witness for C4 on a concrete chord-pending state. -/
theorem C4_chord_nonkey_vs_timeout_witness :
    (main_loop_step cmpN sChord .nonKey).1 = { sChord with awaitingGKey := false } ∧
    (main_loop_step cmpN sChord .nonKey).2 = .cont ∧
    (main_loop_step cmpN sChord .timeout).1 = sChord ∧
    (main_loop_step cmpN sChord .timeout).2 = .cont :=
  C4_chord_nonkey_vs_timeout cmpN sChord rfl

/-- Counterexample for C4 as stated: with a chord pending, a poll interval
with no key event (timeout) does NOT return the machine to normal mode —
the prefix stays armed. -/
theorem C4_timeout_counterexample :
    sChord.awaitingGKey = true ∧
    (main_loop_step cmpN sChord .timeout).1.awaitingGKey = true :=
  ⟨rfl, rfl⟩

/-! ### Claims C6 and C7 -/

/-- A reachable viewer over a table with one column and zero data rows
(e.g. a CSV file holding only a header line). -/
def appZeroRows : AppState := TuiApp_new ⟨["A"], [[]]⟩

/-- Claim C6, divergence: on a zero-row table the `Down` key evaluates
`num_rows - 1` as `0usize - 1` (panic in the debug profile; wraps to
`2^64 - 1` in release), so `selected_row` moves from 0 to 1 instead of
clamping — a wraparound off the end of an empty table. -/
theorem C6_down_empty_table_underflow :
    numRows appZeroRows.table = 0 ∧
    (main_loop_step cmpN appZeroRows (.key .down)).1.selectedRow = 1 := by
  decide

/-- Claim C7, divergence: opening a detail view on a zero-row table
indexes `col[0]` in a column with no cells — an out-of-bounds panic
(`none` in this embedding), not a placeholder resolution. -/
theorem C7_open_detail_zero_rows_fault :
    open_detail_view appZeroRows = none := by
  decide

/-! ### Claim C2 -/

/-- Table with a tied sort column (column 0) and a distinguishing second
column. -/
def tTie : TableData := ⟨["A", "B"], [["x", "x"], ["1", "2"]]⟩

/-- Counterexample for C2 as stated: on a tied sort column, the descending
row order is NOT the reverse of the ascending row order (reversing the row
order of a column-major table reverses every column). -/
theorem C2_tie_counterexample :
    (sort_table cmpN tTie 0 false).columns
      ≠ (sort_table cmpN tTie 0 true).columns.map List.reverse := by
  decide

/-- Claim C2, amended: descending runs the same stable sort with the
reversed comparator, so rows whose cells compare equal in the sort column
keep their ORIGINAL relative order in both directions (ties are not
reversed as a block): on a sort column whose cells all compare equal,
ascending and descending sorts both leave the table unchanged. -/
theorem C2_ties_keep_original_order (cmp : String → String → Ordering)
    (t : TableData) (colIdx : Nat)
    (hrect : ∀ col ∈ t.columns, col.length = numRows t)
    (hties : ∀ i < numRows t, ∀ j < numRows t,
      cmp ((t.columns.getD colIdx []).getD i "")
          ((t.columns.getD colIdx []).getD j "") = .eq) :
    sort_table cmp t colIdx true = t ∧ sort_table cmp t colIdx false = t := by
  have hidx : ∀ asc : Bool,
      sortIndices (cellCmp cmp (t.columns.getD colIdx []) asc)
        (List.range (numRows t)) = List.range (numRows t) := by
    intro asc
    refine sortIndices_eq_self _ _ ?_
    intro i hi j hj
    have he := hties i (List.mem_range.mp hi) j (List.mem_range.mp hj)
    have hcc : cellCmp cmp (t.columns.getD colIdx []) asc i j = .eq := by
      cases asc
      · show ((cmp ((t.columns.getD colIdx []).getD i "")
            ((t.columns.getD colIdx []).getD j ""))).swap = .eq
        rw [he]
        rfl
      · exact he
    rw [hcc]
    decide
  have hcols :
      t.columns.map (fun col => (List.range (numRows t)).map (fun i => col.getD i ""))
        = t.columns := by
    have h1 : ∀ col ∈ t.columns,
        (List.range (numRows t)).map (fun i => col.getD i "") = id col := by
      intro col hc
      rw [← hrect col hc]
      exact range_map_getD col ""
    rw [List.map_congr_left h1, List.map_id]
  have main : ∀ asc : Bool, sort_table cmp t colIdx asc = t := by
    intro asc
    show (⟨t.headers, t.columns.map (fun col =>
        (sortIndices (cellCmp cmp (t.columns.getD colIdx []) asc)
          (List.range (numRows t))).map (fun i => col.getD i ""))⟩ : TableData) = t
    rw [hidx asc, hcols]
  exact ⟨main true, main false⟩

/-- Table whose sort column is constant. -/
def tConst : TableData := ⟨["A", "B"], [["k", "k", "k"], ["1", "2", "3"]]⟩

/-- Witness for C2 on a concrete all-tied sort column. -/
theorem C2_ties_keep_original_order_witness :
    sort_table cmpN tConst 0 true = tConst ∧
    sort_table cmpN tConst 0 false = tConst :=
  C2_ties_keep_original_order cmpN tConst 0 (by decide) (by decide)

/-! ### Claim C5 -/

/-- Claim C5, amended: writing `colStart` for the sum of the widths of
all preceding columns plus one separator unit each and `visible` for the
viewport width (`tableAreaWidth - 2`), the adjustment snaps the offset to
`colStart` when the column starts left of the window, to
`colStart + colWidth - visible` when it overflows the right edge, and
leaves it unchanged otherwise; PROVIDED the selected column is no wider
than the viewport (and the `u16` sums do not overflow), the adjusted
window then contains the column's full span. -/
theorem C5_viewport_adjustment (s : AppState)
    (hsum : ((List.range s.selectedColumn).map
        (fun i => get_column_width s.columnWidths s.table.columns i + 1)).sum
        + get_column_width s.columnWidths s.table.columns s.selectedColumn < 65536)
    (hoff : s.horizontalOffset + (s.tableAreaWidth - 2) < 65536)
    (hw : get_column_width s.columnWidths s.table.columns s.selectedColumn
        ≤ s.tableAreaWidth - 2) :
    colStart s = ((List.range s.selectedColumn).map
        (fun i => get_column_width s.columnWidths s.table.columns i + 1)).sum ∧
    (adjust_horizontal_offset s).horizontalOffset =
      (if colStart s < s.horizontalOffset then colStart s
       else if s.horizontalOffset + (s.tableAreaWidth - 2)
           < colStart s + get_column_width s.columnWidths s.table.columns s.selectedColumn
       then colStart s + get_column_width s.columnWidths s.table.columns s.selectedColumn
           - (s.tableAreaWidth - 2)
       else s.horizontalOffset) ∧
    (adjust_horizontal_offset s).horizontalOffset ≤ colStart s ∧
    colStart s + get_column_width s.columnWidths s.table.columns s.selectedColumn
      ≤ (adjust_horizontal_offset s).horizontalOffset + (s.tableAreaWidth - 2) := by
  have hcs : colStart s = ((List.range s.selectedColumn).map
      (fun i => get_column_width s.columnWidths s.table.columns i + 1)).sum := by
    unfold colStart
    have h := foldl_wrap16_eq
      (fun i => get_column_width s.columnWidths s.table.columns i + 1)
      (List.range s.selectedColumn) 0 (by omega)
    simpa using h
  have hcsW : colStart s
      + get_column_width s.columnWidths s.table.columns s.selectedColumn < 65536 := by
    rw [hcs]; omega
  have hwrap_cs : wrap16 (colStart s
      + get_column_width s.columnWidths s.table.columns s.selectedColumn)
      = colStart s + get_column_width s.columnWidths s.table.columns s.selectedColumn :=
    wrap16_eq_of_lt hcsW
  have hwrap_off : wrap16 (s.horizontalOffset + (s.tableAreaWidth - 2))
      = s.horizontalOffset + (s.tableAreaWidth - 2) := wrap16_eq_of_lt hoff
  have hadj : (adjust_horizontal_offset s).horizontalOffset =
      (if colStart s < s.horizontalOffset then colStart s
       else if s.horizontalOffset + (s.tableAreaWidth - 2)
           < colStart s + get_column_width s.columnWidths s.table.columns s.selectedColumn
       then colStart s + get_column_width s.columnWidths s.table.columns s.selectedColumn
           - (s.tableAreaWidth - 2)
       else s.horizontalOffset) := by
    simp only [adjust_horizontal_offset]
    rw [hwrap_cs, hwrap_off]
    by_cases hc1 : colStart s < s.horizontalOffset
    · rw [if_pos hc1, if_pos hc1]
    · rw [if_neg hc1, if_neg hc1]
      by_cases hc2 : s.horizontalOffset + (s.tableAreaWidth - 2)
          < colStart s + get_column_width s.columnWidths s.table.columns s.selectedColumn
      · rw [if_pos hc2, if_pos hc2]
        show sub16 _ _ = _
        exact sub16_eq_of_le (by omega) hcsW
      · rw [if_neg hc2, if_neg hc2]
  refine ⟨hcs, hadj, ?_, ?_⟩
  · rw [hadj]
    split_ifs with hc1 hc2 <;> omega
  · rw [hadj]
    split_ifs with hc1 hc2 <;> omega

/-- Witness for C5: second of two columns, fitting viewport, offset stays
put and the span is contained. -/
def sNarrow : AppState :=
  { TuiApp_new ⟨["A", "B"], [["x"], ["y"]]⟩ with
      selectedColumn := 1
      columnWidths := [ColumnWidth.Fixed 5, ColumnWidth.Fixed 7]
      tableAreaWidth := 20 }

/-- Witness for C5 on a concrete state whose selected column fits. -/
theorem C5_viewport_adjustment_witness :
    (adjust_horizontal_offset sNarrow).horizontalOffset ≤ colStart sNarrow ∧
    colStart sNarrow
        + get_column_width sNarrow.columnWidths sNarrow.table.columns
            sNarrow.selectedColumn
      ≤ (adjust_horizontal_offset sNarrow).horizontalOffset
          + (sNarrow.tableAreaWidth - 2) := by
  have h := C5_viewport_adjustment sNarrow (by decide) (by decide) (by decide)
  exact ⟨h.2.2.1, h.2.2.2⟩

/-- Concrete state whose selected column (width 30) is wider than the
viewport (visible width 10). -/
def sWide : AppState :=
  { TuiApp_new ⟨["A"], [["x"]]⟩ with
      columnWidths := [ColumnWidth.Fixed 30]
      tableAreaWidth := 12 }

/-- Counterexample for C5 as stated: when the selected column is wider
than the viewport the adjusted window does NOT contain the column's span
(the offset snaps past the column start). -/
theorem C5_wide_column_counterexample :
    (adjust_horizontal_offset sWide).horizontalOffset = 20 ∧
    ¬ ((adjust_horizontal_offset sWide).horizontalOffset ≤ colStart sWide) := by
  decide

/-! ### Claim C8 -/

/-- Claim C8: opening a detail view on a valid selected row yields a fresh
default viewer over the 2-column `Field`/`Value` table whose field column
is the parent's headers and whose value column is the parent's selected
row; pushing it and popping it returns exactly the previous stack, so the
parent viewer's entire state is as before the push. -/
theorem C8_detail_push_pop (s : AppState) (R : Nat)
    (hrect : ∀ col ∈ s.table.columns, col.length = R)
    (hr : s.selectedRow < R) :
    ∃ d : AppState,
      open_detail_view s = some d ∧
      (∀ stack : List AppState, popView (pushView stack d) = stack) ∧
      d = TuiApp_new ⟨["Field", "Value"],
        [s.table.headers,
         s.table.columns.map (fun col => col.getD s.selectedRow "")]⟩ ∧
      d.table.headers = ["Field", "Value"] ∧
      d.table.columns =
        [s.table.headers,
         s.table.columns.map (fun col => col.getD s.selectedRow "")] ∧
      d.selectedRow = 0 ∧ d.selectedColumn = 0 ∧
      d.showAggregationPopup = false ∧ d.aggregationSelected = some 0 ∧
      d.selectedAggregations = [] ∧ d.awaitingGKey = false ∧
      d.columnWidths = List.replicate 2 (ColumnWidth.Fixed 15) ∧
      d.horizontalOffset = 0 := by
  have hopen : open_detail_view s = some (TuiApp_new ⟨["Field", "Value"],
      [s.table.headers,
       s.table.columns.map (fun col => col.getD s.selectedRow "")]⟩) := by
    unfold open_detail_view
    rw [collectValueColumn_eq s.table.columns s.selectedRow R hrect hr]
  exact ⟨_, hopen, fun stack => List.dropLast_concat,
    rfl, rfl, rfl, rfl, rfl, rfl, rfl, rfl, rfl, rfl, rfl⟩

/-- Parent viewer of the spec's worked example. -/
def appParent : AppState := TuiApp_new ⟨["Name", "Age"], [["Alice"], ["30"]]⟩

/-- Witness for C8 on the spec's `Name`/`Age` example. -/
theorem C8_detail_push_pop_witness :
    open_detail_view appParent
      = some (TuiApp_new ⟨["Field", "Value"], [["Name", "Age"], ["Alice", "30"]]⟩) ∧
    popView (pushView [appParent]
        (TuiApp_new ⟨["Field", "Value"], [["Name", "Age"], ["Alice", "30"]]⟩))
      = [appParent] := by
  obtain ⟨d, h1, h2, h3, _⟩ := C8_detail_push_pop appParent 1 (by decide) (by decide)
  subst h3
  exact ⟨h1, h2 [appParent]⟩

/-! ### Claim C9 -/

/-- The function the popup space key toggles: the cursor's entry of the
fixed function list (`iter().nth(index).unwrap()`). -/
def spaceAgg (s : AppState) : AggregationFunction :=
  aggFunctions.getD (s.aggregationSelected.getD 0) .Count

/-- Popup-mode space key: exactly the selection map is replaced by the
toggled map. -/
theorem popup_space_step (cmp : String → String → Ordering) (s : AppState)
    (hpop : s.showAggregationPopup = true) :
    (main_loop_step cmp s (.key (.char ' '))).1
      = { s with selectedAggregations := toggleAggregation s.selectedAggregations s.selectedColumn (spaceAgg s) } := by
  simp [main_loop_step, hpop, popupStep, spaceAgg]

/-- Toggling a function absent from the column's (absent) entry inserts a
singleton entry. -/
theorem toggleAggregation_absent (m : List (Nat × List AggregationFunction))
    (col : Nat) (agg : AggregationFunction) (h : lookupA col m = none) :
    toggleAggregation m col agg = insertA col [agg] m := by
  unfold toggleAggregation
  rw [h]
  rfl

/-- Toggling the only selected function of a column removes the column's
entry entirely. -/
theorem toggleAggregation_present_single
    (m : List (Nat × List AggregationFunction)) (col : Nat)
    (agg : AggregationFunction) (h : lookupA col m = some [agg]) :
    toggleAggregation m col agg = eraseA col m := by
  cases agg <;> (unfold toggleAggregation; rw [h]; rfl)

/-- Every toggle keeps every entry of the selection map non-empty. -/
theorem toggleAggregation_preserves_nonempty
    (m : List (Nat × List AggregationFunction)) (col : Nat)
    (agg : AggregationFunction) (hinv : ∀ e ∈ m, e.2 ≠ []) :
    ∀ e ∈ toggleAggregation m col agg, e.2 ≠ [] := by
  intro e he
  simp only [toggleAggregation] at he
  split at he
  · split at he
    · rcases List.mem_filter.mp he with ⟨hm, _⟩
      exact hinv e hm
    · rename_i hne
      rcases mem_insertA _ _ _ he with h | h
      · rw [h]
        exact hne
      · exact hinv e h
  · rcases mem_insertA _ _ _ he with h | h
    · rw [h]
      simp
    · exact hinv e h

/-- Claim C9: with the popup open, toggling a function for a column with
no current selection and toggling it again leaves that column absent from
the selection map; and a single popup toggle preserves the invariant that
every entry of the map is non-empty. -/
theorem C9_popup_toggle (cmp : String → String → Ordering) (s : AppState)
    (hpop : s.showAggregationPopup = true) :
    ((lookupA s.selectedColumn s.selectedAggregations = none) →
      lookupA s.selectedColumn
        ((main_loop_step cmp (main_loop_step cmp s (.key (.char ' '))).1
            (.key (.char ' '))).1).selectedAggregations = none) ∧
    ((∀ e ∈ s.selectedAggregations, e.2 ≠ []) →
      ∀ e ∈ (main_loop_step cmp s (.key (.char ' '))).1.selectedAggregations,
        e.2 ≠ []) := by
  have h1 := popup_space_step cmp s hpop
  constructor
  · intro habs
    have h2 := popup_space_step cmp
      { s with selectedAggregations := toggleAggregation s.selectedAggregations s.selectedColumn (spaceAgg s) }
      hpop
    rw [h1, h2]
    show lookupA s.selectedColumn
        (toggleAggregation
          (toggleAggregation s.selectedAggregations s.selectedColumn (spaceAgg s))
          s.selectedColumn (spaceAgg s)) = none
    rw [toggleAggregation_absent _ _ _ habs]
    rw [toggleAggregation_present_single _ _ _ (lookupA_insertA_self _ _ _)]
    exact lookupA_eraseA_self _ _
  · intro hinv e he
    rw [h1] at he
    have he' : e ∈ toggleAggregation s.selectedAggregations s.selectedColumn (spaceAgg s) := he
    exact toggleAggregation_preserves_nonempty _ _ _ hinv e he'

/-- Concrete popup-open state with an empty selection map. -/
def sPopup : AppState :=
  { TuiApp_new ⟨["A"], [["x"]]⟩ with showAggregationPopup := true }

/-- Witness for C9 on a concrete popup-open state. -/
theorem C9_popup_toggle_witness :
    lookupA sPopup.selectedColumn
        ((main_loop_step cmpN (main_loop_step cmpN sPopup (.key (.char ' '))).1
            (.key (.char ' '))).1).selectedAggregations = none ∧
    (∀ e ∈ (main_loop_step cmpN sPopup (.key (.char ' '))).1.selectedAggregations,
        e.2 ≠ []) := by
  have h := C9_popup_toggle cmpN sPopup rfl
  exact ⟨h.1 rfl, h.2 (by intro e he; cases he)⟩

/-! ### Claim C10 -/

/-- Default-independence of in-range `getD`. -/
theorem getD_eq_of_lt {α : Type} (l : List α) (n : Nat) (d d' : α)
    (h : n < l.length) : l.getD n d = l.getD n d' := by
  rw [List.getD_eq_getElem?_getD, List.getD_eq_getElem?_getD]
  cases hx : l[n]? with
  | none => exact absurd (List.getElem?_eq_none_iff.mp hx) (by omega)
  | some c => rfl

/-- In-range `getD` commutes with `map`. -/
theorem getD_map_eq {α β : Type} (f : α → β) (l : List α) (n : Nat) (d : α)
    (h : n < l.length) : (l.map f).getD n (f d) = f (l.getD n d) := by
  rw [List.getD_eq_getElem?_getD, List.getD_eq_getElem?_getD, List.getElem?_map]
  cases hx : l[n]? with
  | none => exact absurd (List.getElem?_eq_none_iff.mp hx) (by omega)
  | some c => rfl

/-- In-range `getD` is a member of the list. -/
theorem getD_mem_of_lt {α : Type} (l : List α) (n : Nat) (d : α)
    (h : n < l.length) : l.getD n d ∈ l := by
  rw [List.getD_eq_getElem?_getD]
  cases hx : l[n]? with
  | none => exact absurd (List.getElem?_eq_none_iff.mp hx) (by omega)
  | some c => exact List.getElem?_mem hx

/-- Claim C10: `UniqueCount` of any column is invariant under sorting by
any column in either direction, because the sort permutes every column by
the same index permutation. -/
theorem C10_unique_count_sort_invariant (cmp : String → String → Ordering)
    (t : TableData) (colIdx aggCol : Nat) (asc : Bool) (R : Nat)
    (hrect : ∀ col ∈ t.columns, col.length = R) :
    uniqueCountAggregate ((sort_table cmp t colIdx asc).columns.getD aggCol [])
      = uniqueCountAggregate (t.columns.getD aggCol []) := by
  by_cases hlt : aggCol < t.columns.length
  · have h0 : 0 < t.columns.length := by omega
    have hne : t.columns ≠ [] := by
      intro hnil
      rw [hnil] at h0
      simp at h0
    have hnr : numRows t = R := by
      unfold numRows
      rw [if_neg hne]
      exact hrect _ (getD_mem_of_lt t.columns 0 [] h0)
    have hcollen : (t.columns.getD aggCol []).length = R :=
      hrect _ (getD_mem_of_lt t.columns aggCol [] hlt)
    have hsc : (sort_table cmp t colIdx asc).columns
        = t.columns.map (fun col =>
            (sortIndices (cellCmp cmp (t.columns.getD colIdx []) asc)
              (List.range (numRows t))).map (fun i => col.getD i "")) := rfl
    rw [hsc]
    rw [getD_eq_of_lt _ aggCol []
      ((sortIndices (cellCmp cmp (t.columns.getD colIdx []) asc)
        (List.range (numRows t))).map (fun i => ([] : List String).getD i ""))
      (by rw [List.length_map]; exact hlt)]
    rw [getD_map_eq _ t.columns aggCol [] hlt]
    have hperm : ((sortIndices (cellCmp cmp (t.columns.getD colIdx []) asc)
        (List.range (numRows t))).map
          (fun i => (t.columns.getD aggCol []).getD i "")).Perm
        (t.columns.getD aggCol []) := by
      have hp1 := sortIndices_perm
        (cellCmp cmp (t.columns.getD colIdx []) asc) (List.range (numRows t))
      have hp2 := hp1.map (fun i => (t.columns.getD aggCol []).getD i "")
      refine hp2.trans ?_
      have heq : (List.range (numRows t)).map
          (fun i => (t.columns.getD aggCol []).getD i "")
          = t.columns.getD aggCol [] := by
        rw [hnr, ← hcollen]
        exact range_map_getD _ ""
      rw [heq]
    unfold uniqueCountAggregate
    exact congrArg Finset.card (List.toFinset_eq_of_perm _ _ hperm)
  · have hlen : (sort_table cmp t colIdx asc).columns.length = t.columns.length := by
      show (t.columns.map _).length = t.columns.length
      rw [List.length_map]
    have h1 : (sort_table cmp t colIdx asc).columns.getD aggCol [] = [] :=
      List.getD_eq_default _ _ (by rw [hlen]; omega)
    have h2 : t.columns.getD aggCol [] = [] :=
      List.getD_eq_default _ _ (by omega)
    rw [h1, h2]

/-- Witness for C10: sorting the tied example table leaves the distinct
count of its second column unchanged. -/
theorem C10_unique_count_sort_invariant_witness :
    uniqueCountAggregate ((sort_table cmpN tTie 0 true).columns.getD 1 [])
      = uniqueCountAggregate (tTie.columns.getD 1 []) :=
  C10_unique_count_sort_invariant cmpN tTie 0 1 true 2 (by decide)

end Fastdata
